import Mathlib

/-!
Verification development for the seqvar repository (FASTA indexed random
access).  The Python sources `src/sequence.py`, `src/region.py` and
`src/prototype/fasta.py` are shallowly embedded below: machine integers
become `Nat`/`Int`, file contents become `List Char`, Python dictionaries
become functions `String → Option _`, and fallible constructors return an
explicit result inductive.  The Python text-mode file read (`open` with
default `newline=None`) is modelled faithfully: `seek(n)` positions the
underlying byte stream at offset `n`, and `read(m)` returns `m` characters
of the universal-newlines-translated stream, in which every `'\r\n'` pair
and every lone `'\r'` has been decoded to `'\n'`.
-/

/-- One record of a `.fai` index file, as stored by `Sequence._load_index`
and `Fasta.read_index` (fields `chrom_len`, `byte_offset`, `line_nbase`,
`line_nchar`).  The fields are modelled as `Nat`, matching the data-model
invariants of a well-formed index (non-negative offsets and positive line
geometry); theorems that need positivity state it explicitly. -/
structure IndexEntry where
  chrom_len : Nat
  byte_offset : Nat
  line_nbase : Nat
  line_nchar : Nat
deriving DecidableEq

/-- The spec's offset formula, written from the specification text:
`offset(p) = byte_offset + p + line_ndiff * floor(p / line_nbase)` with
`line_ndiff = line_nchar - line_nbase`, for a 0-based position `p`.
This is the spec-side definition used to check the code's arithmetic. -/
def offsetSpec (e : IndexEntry) (p : Nat) : Nat :=
  e.byte_offset + p + (e.line_nchar - e.line_nbase) * (p / e.line_nbase)

/-- Offset resolution transcribed from `Sequence.query_region`
(src/sequence.py lines 126-133; identically src/prototype/fasta.py lines
162-170): given the index entry and the 0-based inclusive query pair,
compute `offset_start`, `offset_end` and `read_nbyte`. -/
def resolveOffsets (e : IndexEntry) (query_start query_end : Nat) :
    Nat × Nat × Nat :=
  let line_ndiff := e.line_nchar - e.line_nbase
  let line_nbase := e.line_nbase
  let offset_start := e.byte_offset + query_start +
    line_ndiff * (query_start / line_nbase)
  let offset_end := e.byte_offset + query_end +
    line_ndiff * (query_end / line_nbase)
  (offset_start, offset_end, offset_end - offset_start + 1)

/-- The newline character stripped by `.replace('\n', '')` in both query
implementations. -/
def nl : Char := '\n'

/-- The carriage-return character, translated away by the text-mode
decoder. -/
def cr : Char := '\r'

/-- Universal-newlines decoding performed by a Python 3 text-mode read
(`open` with default `newline=None`): every `'\r\n'` pair and every lone
`'\r'` in the byte stream is decoded to a single `'\n'` character.  The
decoder starts fresh at the seek position, so it is applied to the byte
suffix being read. -/
def universalNewlines : List Char → List Char
  | [] => []
  | [c] => if c = cr then [nl] else [c]
  | c :: c2 :: rest =>
    if c = cr then
      if c2 = nl then nl :: universalNewlines rest
      else nl :: universalNewlines (c2 :: rest)
    else c :: universalNewlines (c2 :: rest)

/-- The read step shared by `Sequence.query_region` (lines 135-139) and
`Fasta.query_region` (lines 172-176): `f.seek(offset_start)` positions the
byte stream, `f.read(read_nbyte)` returns `read_nbyte` characters of the
universal-newlines-decoded stream, and `.replace('\n', '')` strips the
newlines. -/
def readStrip (fa : List Char) (offset_start read_nbyte : Nat) : List Char :=
  ((universalNewlines (fa.drop offset_start)).take read_nbyte).filter
    (fun c => c != nl)

/-- Result of `Fasta.query_region` (src/prototype/fasta.py): `None` for an
unknown chromosome, `(region, None)` for a rejected range (after the
warning print), `(region, sequence)` on success. -/
inductive QueryResult where
  | unknownChrom
  | rangeError (region : String)
  | ok (region : String) (seq : List Char)
deriving DecidableEq

/-- Python truthiness test `not pstart` used by `Fasta.query_region`:
true for a missing argument (`None`) and for `0`. -/
def pyFalsy : Option Int → Bool
  | none => true
  | some v => v == 0

/-- Normalization `if not pstart: pstart = 1` of `Fasta.query_region`. -/
def normStart (ps : Option Int) : Int :=
  if pyFalsy ps then 1 else ps.getD 1

/-- Normalization `if not pend: pend = chrom_len` of `Fasta.query_region`. -/
def normEnd (pe : Option Int) (chrom_len : Nat) : Int :=
  if pyFalsy pe then (chrom_len : Int) else pe.getD 1

/-- The region label `'{}:{}-{}'.format(chrom, pstart, pend)`. -/
def regionStrOf (chrom : String) (pstart pend : Int) : String :=
  chrom ++ ":" ++ toString pstart ++ "-" ++ toString pend

/-- `Fasta.query_region` from src/prototype/fasta.py lines 111-180:
look up the chromosome, normalize falsy bounds, validate
`pstart`/`pend` against `[1, chrom_len]` and `pend < pstart`, then seek,
read and strip newlines.  `fa` is the fasta file content. -/
def fastaQueryRegion (tbl : String → Option IndexEntry) (fa : List Char)
    (chrom : String) (ps0 pe0 : Option Int) : QueryResult :=
  match tbl chrom with
  | none => .unknownChrom
  | some e =>
    let pstart := normStart ps0
    let pend := normEnd pe0 e.chrom_len
    let region := regionStrOf chrom pstart pend
    if pstart < 1 ∨ (e.chrom_len : Int) < pstart then .rangeError region
    else if pend < 1 ∨ (e.chrom_len : Int) < pend then .rangeError region
    else if pend < pstart then .rangeError region
    else
      let ro := resolveOffsets e (pstart - 1).toNat (pend - 1).toNat
      .ok region (readStrip fa ro.1 ro.2.2)

/-- A `Region` object from src/region.py: `chrom`, 1-based inclusive
`pstart`/`pend`, and `length` (`-1` for the empty / whole-chromosome
sentinel). -/
structure Region where
  chrom : String
  pstart : Int
  pend : Int
  length : Int
deriving DecidableEq

/-- `Region.__str__`: the chromosome alone when `length == -1`, else
`chrom:pstart-pend`. -/
def regionStr (r : Region) : String :=
  if r.length = -1 then r.chrom else regionStrOf r.chrom r.pstart r.pend

/-- The 0-based inclusive normalization step of `Sequence.query_region`
(src/sequence.py lines 117-124): a whole-chromosome region
(`length == -1`) or `pend > chrom_len` resets the query to the full
contig, otherwise both supplied bounds are shifted to 0-based. -/
def seqNormalize (e : IndexEntry) (r : Region) : Nat × Nat :=
  if r.length = -1 ∨ (e.chrom_len : Int) < r.pend then
    (0, e.chrom_len - 1)
  else
    ((r.pstart - 1).toNat, (r.pend - 1).toNat)

/-- Result of `Sequence.query_region`: `unknownChrom` models the warning
print followed by the empty-string return; `found` carries the stripped
sequence. -/
inductive SeqOut where
  | unknownChrom
  | found (s : List Char)
deriving DecidableEq

/-- `Sequence.query_region` from src/sequence.py lines 98-141. -/
def seqQueryRegion (tbl : String → Option IndexEntry) (fa : List Char)
    (r : Region) : SeqOut :=
  match tbl r.chrom with
  | none => .unknownChrom
  | some e =>
    let qp := seqNormalize e r
    let ro := resolveOffsets e qp.1 qp.2
    .found (readStrip fa ro.1 ro.2.2)

/-- A positional argument of `Region.__init__`: a string (the contig name)
or an integer (a position).  Python's `int(...)` coercion of numeric
strings to integers is not modelled; positions are supplied as integers. -/
inductive Arg where
  | str (s : String)
  | int (v : Int)
deriving DecidableEq

/-- Outcome of `Region.__init__`: a constructed object, an
`InternalError`, a `RegionRangeError`, a `TypeError`/`ValueError` from a
wrongly-typed argument, or the `UnboundLocalError` reached when the final
tuple assignment reads local variables that were never bound. -/
inductive InitResult where
  | ok (r : Region)
  | internalError
  | rangeError
  | typeError
  | unboundLocal
deriving DecidableEq

/-- Whether a contig name contains a range-delimiter character
(`':' in args[0] or '-' in args[0]`), as membership in the string's
characters. -/
def hasDelim (c : String) : Bool := c.data.contains ':' || c.data.contains '-'

/-- `Region.__init__` from src/region.py lines 55-91, branch for branch:
empty argument list returns the empty region; more than three arguments
raises `InternalError`; a delimiter in the contig raises `InternalError`;
one argument falls through to the final tuple assignment with the local
position variables unbound (`UnboundLocalError`); two or three integer
positions are range-checked and raise `RegionRangeError` on violation. -/
def regionInit : List Arg → InitResult
  | [] => .ok ⟨"", -1, -1, -1⟩
  | a :: rest =>
    if (a :: rest).length > 3 then .internalError
    else match a with
      | .int _ => .typeError
      | .str chrom =>
        if hasDelim chrom then .internalError
        else match rest with
          | [] => .unboundLocal
          | [p1] =>
            match p1 with
            | .str _ => .typeError
            | .int pstart =>
              if pstart ≤ 0 then .rangeError
              else .ok ⟨chrom, pstart, pstart, 1⟩
          | [p1, p2] =>
            match p1, p2 with
            | .int pstart, .int pend =>
              if pstart ≤ 0 ∨ pend ≤ 0 then .rangeError
              else if pend < pstart then .rangeError
              else .ok ⟨chrom, pstart, pend, pend - pstart + 1⟩
            | _, _ => .typeError
          | _ => .internalError

/-- The caller-error condition of the spec: arity greater than three, or
the contig argument contains `':'` or `'-'`. -/
def callerCond (args : List Arg) : Bool :=
  decide (3 < args.length) ||
    (match args with
     | .str c :: _ => hasDelim c
     | _ => false)

/-- The range-error condition of the spec: a supplied integer position is
non-positive, or the supplied end precedes the supplied start. -/
def rangeCond : List Arg → Bool
  | [.str _, .int pstart] => decide (pstart ≤ 0)
  | [.str _, .int pstart, .int pend] =>
    decide (pstart ≤ 0) || decide (pend ≤ 0) || decide (pend < pstart)
  | _ => false

/-- A raw `.fai` record as parsed by `int(...)` in the loaders: the four
numeric fields as (possibly negative) integers. -/
structure RawIndexEntry where
  chrom_len : Int
  byte_offset : Int
  line_nbase : Int
  line_nchar : Int
deriving DecidableEq

/-- The loader loop body of `Sequence._load_index` (src/sequence.py lines
81-96) and `Fasta.read_index` (src/prototype/fasta.py lines 90-107):
`fai_data[chrom] = entry` (a dictionary write, so a later occurrence of
the same key overwrites the earlier one) followed by
`chrom_list.append(chrom)` (unconditional). -/
def loadIndexAux {β : Type} (d : String → Option β) (names : List String) :
    List (String × β) → (String → Option β) × List String
  | [] => (d, names)
  | (k, v) :: rest =>
    loadIndexAux (fun n => if n = k then some v else d n) (names ++ [k]) rest

/-- The whole loader loop, started from the empty dictionary and list. -/
def loadIndex {β : Type} (entries : List (String × β)) :
    (String → Option β) × List String :=
  loadIndexAux (fun _ => none) [] entries

/-- The metadata of the last line carrying a given contig name. -/
def lastEntry {β : Type} (entries : List (String × β)) (n : String) :
    Option β :=
  (entries.reverse.find? (fun p => p.1 == n)).map Prod.snd

/-- Value of a non-empty all-digit character list, base 10. -/
def digitsVal (s : List Char) : Option Nat :=
  if s ≠ [] ∧ s.all Char.isDigit then
    some (s.foldl (fun a c => a * 10 + (c.toNat - '0'.toNat)) 0)
  else none

/-- Python `int(...)` on a field: an optional sign followed by at least
one digit.  (Python additionally tolerates surrounding whitespace and
interior underscores; those inputs do not occur in well-formed or in the
claims' malformed index files and are not modelled.) -/
def parseInt : List Char → Option Int
  | '-' :: rest => (digitsVal rest).map (fun v => -(v : Int))
  | '+' :: rest => (digitsVal rest).map (fun v => (v : Int))
  | s => (digitsVal s).map (fun v => (v : Int))

/-- Python `str.rstrip()`: remove trailing whitespace. -/
def rstrip (l : List Char) : List Char :=
  (l.reverse.dropWhile (fun c => c.isWhitespace)).reverse

/-- Python `str.split('\t')`: split on every tab; `''.split('\t')` is
`['']`. -/
def splitOnTab (l : List Char) : List (List Char) :=
  l.foldr
    (fun c acc =>
      match acc with
      | [] => [[c]]
      | h :: t => if c = '\t' then [] :: h :: t else (c :: h) :: t)
    [[]]

/-- One line of the loader:
`chrom, chrom_len, byte_offset, line_nbase, line_nchar =
line.rstrip().split('\t')` followed by the four `int(...)` calls.  A line
that does not split into exactly five fields (unpacking `ValueError`), or
whose numeric fields do not parse (`int` `ValueError`), is `none`. -/
def parseLine (l : List Char) : Option (String × RawIndexEntry) :=
  match splitOnTab (rstrip l) with
  | [chrom, f1, f2, f3, f4] =>
    match parseInt f1, parseInt f2, parseInt f3, parseInt f4 with
    | some chrom_len, some byte_offset, some line_nbase, some line_nchar =>
      some (String.mk chrom, ⟨chrom_len, byte_offset, line_nbase, line_nchar⟩)
    | _, _, _, _ => none
  | _ => none

/-- Parse every line; an exception on any line aborts the whole load. -/
def parseLines : List (List Char) → Option (List (String × RawIndexEntry))
  | [] => some []
  | l :: ls =>
    match parseLine l with
    | none => none
    | some e => (parseLines ls).map (fun es => e :: es)

/-- The full index load (`Sequence._load_index` / `Fasta.read_index`) on
the file's lines: parse each line, then run the loader loop.  `none`
models the propagated `ValueError` (no table is produced). -/
def loadIndexFile (lines : List (List Char)) :
    Option ((String → Option RawIndexEntry) × List String) :=
  (parseLines lines).map loadIndex

/-- Layout of one contig's data in a FASTA file (spec section 6): lines of
exactly `nbase` characters (the last possibly shorter), each followed by
the fixed terminator `term`.  The degenerate geometry `nbase = 0` is
mapped to the empty encoding. -/
def encodeLines (nbase : Nat) (term : List Char) (s : List Char) :
    List Char :=
  if h : s = [] ∨ nbase = 0 then []
  else s.take nbase ++ term ++ encodeLines nbase term (s.drop nbase)
termination_by s.length
decreasing_by
  rw [not_or] at h
  have h1 : 0 < s.length := List.length_pos.mpr h.1
  have h2 : 0 < nbase := Nat.pos_of_ne_zero h.2
  simp only [List.length_drop]
  omega

/-- Unfolding lemma: the encoding of an empty sequence is empty. -/
theorem encodeLines_nil (nbase : Nat) (term : List Char) :
    encodeLines nbase term [] = [] := by
  rw [encodeLines]
  simp

/-- Unfolding lemma: one line of bases followed by the terminator and the
encoding of the remaining bases. -/
theorem encodeLines_pos (nbase : Nat) (term s : List Char)
    (h1 : s ≠ []) (h2 : nbase ≠ 0) :
    encodeLines nbase term s =
      s.take nbase ++ term ++ encodeLines nbase term (s.drop nbase) := by
  rw [encodeLines]
  simp [h1, h2]

/-- Dropping one full line (`nbase + d` bytes) from the encoding drops
`nbase` bases, provided a full line exists. -/
theorem encodeLines_drop_line (nbase d : Nat) (term : List Char)
    (hb : 1 ≤ nbase) (ht : term.length = d) (s suf : List Char)
    (hlen : nbase < s.length) :
    (encodeLines nbase term s ++ suf).drop (nbase + d) =
      encodeLines nbase term (s.drop nbase) ++ suf := by
  have hs : s ≠ [] := by
    intro h
    subst h
    simp at hlen
  rw [encodeLines_pos nbase term s hs (by omega)]
  have hA : (s.take nbase).length = nbase := by
    rw [List.length_take]
    omega
  simp only [List.append_assoc]
  rw [show nbase + d = (s.take nbase).length + d by rw [hA]]
  rw [List.drop_append]
  rw [List.drop_left' ht]

/-- Dropping `q` full lines from the encoding drops `q * nbase` bases,
provided the `q`-th line starts inside the sequence. -/
theorem encodeLines_drop_lines (nbase d : Nat) (term : List Char)
    (hb : 1 ≤ nbase) (ht : term.length = d) (q : Nat) (s suf : List Char)
    (hlen : q * nbase < s.length) :
    (encodeLines nbase term s ++ suf).drop (q * (nbase + d)) =
      encodeLines nbase term (s.drop (q * nbase)) ++ suf := by
  induction q generalizing s with
  | zero => simp
  | succ k ih =>
    have hmul : (k + 1) * nbase = k * nbase + nbase := Nat.succ_mul k nbase
    have h1 : k * nbase < s.length := by omega
    have hstep : (k + 1) * (nbase + d) = k * (nbase + d) + (nbase + d) :=
      Nat.succ_mul k (nbase + d)
    rw [hstep, ← List.drop_drop, ih s h1]
    have h2 : nbase < (s.drop (k * nbase)).length := by
      rw [List.length_drop]
      omega
    rw [encodeLines_drop_line nbase d term hb ht _ suf h2]
    rw [List.drop_drop]
    rw [show k * nbase + nbase = (k + 1) * nbase by omega]

/-- Core of the query correctness: reading
`e + d * (e / nbase) + 1 - r` bytes of the newline-terminated encoding,
starting at in-line byte position `r < nbase`, and stripping newlines,
yields exactly the bases `r .. e` (0-based, inclusive). -/
theorem encode_slice_filter (nbase d : Nat) (hb : 1 ≤ nbase) :
    ∀ (e : Nat) (s suf : List Char) (r : Nat),
    (∀ c ∈ s, c ≠ nl) → r < nbase → r ≤ e → e < s.length →
    (((encodeLines nbase (List.replicate d nl) s ++ suf).drop r).take
        (e + d * (e / nbase) + 1 - r)).filter (fun c => c != nl) =
      (s.drop r).take (e + 1 - r) := by
  intro e
  induction e using Nat.strong_induction_on with
  | _ e ih =>
    intro s suf r hs hr hre he
    have hsne : s ≠ [] := by
      intro hx
      subst hx
      simp at he
    rw [encodeLines_pos nbase _ s hsne (by omega)]
    simp only [List.append_assoc]
    rw [List.drop_append_eq_append_drop]
    have hdz : r - (s.take nbase).length = 0 := by
      rw [List.length_take]
      omega
    rw [hdz, List.drop_zero]
    by_cases hcase : e < nbase
    · -- the query ends inside the first line
      have hdiv : e / nbase = 0 := Nat.div_eq_of_lt hcase
      rw [hdiv, Nat.mul_zero, Nat.add_zero]
      rw [List.take_append_eq_append_take]
      have hz : e + 1 - r - ((s.take nbase).drop r).length = 0 := by
        rw [List.length_drop, List.length_take]
        omega
      rw [hz, List.take_zero, List.append_nil]
      rw [List.drop_take, List.take_take]
      have hmin : min (e + 1 - r) (nbase - r) = e + 1 - r := by omega
      rw [hmin]
      rw [List.filter_eq_self]
      intro a ha
      rw [bne_iff_ne]
      exact hs a (List.mem_of_mem_drop (List.mem_of_mem_take ha))
    · -- the query crosses the first line boundary
      have hnb : nbase ≤ e := by omega
      have hq1 : 1 ≤ e / nbase := (Nat.one_le_div_iff (by omega)).mpr hnb
      have hA : (s.take nbase).length = nbase := by
        rw [List.length_take]
        omega
      have hdiv : e / nbase = (e - nbase) / nbase + 1 :=
        Nat.div_eq_sub_div (by omega) hnb
      rw [List.take_append_eq_append_take]
      have hlenAr : ((s.take nbase).drop r).length = nbase - r := by
        rw [List.length_drop, hA]
      have htk1 : ((s.take nbase).drop r).take
          (e + d * (e / nbase) + 1 - r) = (s.take nbase).drop r := by
        apply List.take_of_length_le
        rw [hlenAr]
        have : d * 1 ≤ d * (e / nbase) := Nat.mul_le_mul_left d hq1
        omega
      rw [htk1]
      rw [List.take_append_eq_append_take]
      have hn1 : e + d * (e / nbase) + 1 - r - ((s.take nbase).drop r).length
          = e + d * ((e - nbase) / nbase) + 1 + d - nbase := by
        rw [hlenAr, hdiv, Nat.mul_add, Nat.mul_one]
        omega
      rw [hn1]
      have htk2 : (List.replicate d nl).take
          (e + d * ((e - nbase) / nbase) + 1 + d - nbase) =
          List.replicate d nl := by
        apply List.take_of_length_le
        rw [List.length_replicate]
        omega
      rw [htk2]
      have hn2 : e + d * ((e - nbase) / nbase) + 1 + d - nbase -
          (List.replicate d nl).length =
          (e - nbase) + d * ((e - nbase) / nbase) + 1 - 0 := by
        rw [List.length_replicate]
        omega
      rw [hn2]
      rw [List.filter_append, List.filter_append]
      have hf1 : ((s.take nbase).drop r).filter (fun c => c != nl) =
          (s.take nbase).drop r := by
        rw [List.filter_eq_self]
        intro a ha
        rw [bne_iff_ne]
        exact hs a (List.mem_of_mem_take (List.mem_of_mem_drop ha))
      have hf2 : (List.replicate d nl).filter (fun c => c != nl) = [] := by
        rw [List.filter_eq_nil_iff]
        intro a ha
        rw [List.mem_replicate] at ha
        simp [ha.2]
      rw [hf1, hf2, List.nil_append]
      have hihcond : e - nbase < e := by omega
      have hrec := ih (e - nbase) hihcond (s.drop nbase) suf 0
        (fun c hc => hs c (List.mem_of_mem_drop hc)) (by omega) (by omega)
        (by rw [List.length_drop]; omega)
      rw [List.drop_zero] at hrec
      rw [hrec]
      rw [List.drop_zero]
      rw [List.drop_take]
      have hd2 : s.drop nbase = (s.drop r).drop (nbase - r) := by
        rw [List.drop_drop]
        congr 1
        omega
      rw [hd2]
      rw [← List.take_add]
      congr 1
      omega

/-- A character other than the carriage return passes through the
text-mode decoder unchanged. -/
theorem uNl_cons_of_ne (c : Char) (l : List Char) (h : c ≠ cr) :
    universalNewlines (c :: l) = c :: universalNewlines l := by
  cases l with
  | nil => simp [universalNewlines, h]
  | cons c2 rest => simp [universalNewlines, h]

/-- The text-mode decoder is the identity on a carriage-return-free
block, and then continues on the remainder of the stream. -/
theorem uNl_append_no_cr (Y Z : List Char) (h : ∀ c ∈ Y, c ≠ cr) :
    universalNewlines (Y ++ Z) = Y ++ universalNewlines Z := by
  induction Y with
  | nil => simp
  | cons c ys ih =>
    rw [List.cons_append, uNl_cons_of_ne c _ (h c (by simp))]
    rw [ih (fun x hx => h x (by simp [hx]))]
    simp

/-- Every character of the encoding is a base or a terminator byte. -/
theorem mem_encodeLines (nbase : Nat) (term : List Char) :
    ∀ (s : List Char) (c : Char), c ∈ encodeLines nbase term s →
      c ∈ s ∨ c ∈ term := by
  suffices H : ∀ n (s : List Char), s.length = n → ∀ c,
      c ∈ encodeLines nbase term s → c ∈ s ∨ c ∈ term by
    intro s c
    exact H s.length s rfl c
  intro n
  induction n using Nat.strong_induction_on with
  | _ n ih =>
    intro s hlen c hc
    by_cases hs : s = [] ∨ nbase = 0
    · rw [encodeLines] at hc
      rw [dif_pos hs] at hc
      simp at hc
    · push_neg at hs
      rw [encodeLines_pos nbase term s hs.1 hs.2] at hc
      rcases List.mem_append.mp hc with h1 | h2
      · rcases List.mem_append.mp h1 with h3 | h4
        · exact Or.inl (List.mem_of_mem_take h3)
        · exact Or.inr h4
      · have hlpos : 1 ≤ s.length := List.length_pos.mpr hs.1
        have hd := ih (s.length - nbase) (by omega) (s.drop nbase)
          (by rw [List.length_drop]) c h2
        rcases hd with h5 | h6
        · exact Or.inl (List.mem_of_mem_drop h5)
        · exact Or.inr h6

/-- Length of the encoding: one `d`-byte terminator per (possibly
shorter) line, `ceil(length / nbase)` lines in total. -/
theorem encodeLines_length (nbase d : Nat) (term : List Char)
    (hb : 1 ≤ nbase) (ht : term.length = d) :
    ∀ (s : List Char),
    (encodeLines nbase term s).length =
      s.length + d * ((s.length + nbase - 1) / nbase) := by
  suffices H : ∀ n (s : List Char), s.length = n →
      (encodeLines nbase term s).length =
        s.length + d * ((s.length + nbase - 1) / nbase) by
    intro s
    exact H s.length s rfl
  intro n
  induction n using Nat.strong_induction_on with
  | _ n ih =>
    intro s hlen
    by_cases hs : s = []
    · subst hs
      rw [encodeLines_nil]
      have h0 : (nbase - 1) / nbase = 0 := Nat.div_eq_of_lt (by omega)
      simp [h0]
    · have hlpos : 1 ≤ s.length := List.length_pos.mpr hs
      rw [encodeLines_pos nbase term s hs (by omega)]
      simp only [List.length_append, List.length_take, ht]
      by_cases hcase : s.length ≤ nbase
      · have hdrop : s.drop nbase = [] := List.drop_eq_nil_of_le hcase
        have hq1 : (s.length + nbase - 1) / nbase = 1 := by
          apply Nat.div_eq_of_lt_le
          · omega
          · omega
        rw [hdrop, encodeLines_nil, hq1]
        simp only [List.length_nil]
        omega
      · push_neg at hcase
        have hrec := ih (s.length - nbase) (by omega) (s.drop nbase)
          (by rw [List.length_drop])
        rw [hrec, List.length_drop]
        have hdiv : (s.length + nbase - 1) / nbase =
            (s.length - nbase + nbase - 1) / nbase + 1 := by
          rw [show s.length + nbase - 1 =
            (s.length - nbase + nbase - 1) + nbase by omega]
          exact Nat.add_div_right _ (by omega)
        rw [hdiv, Nat.mul_add, Nat.mul_one]
        omega

/-- Read correctness for the shared seek/read/strip pipeline: on a file
that lays the contig out at `byte_offset` with `line_nbase` bases per
line and a `d`-byte newline terminator, the byte range computed by
`resolveOffsets` for the 0-based pair `(qs, qe)` reads back exactly the
bases `qs .. qe`.  The text-mode decoding is the identity on the
newline-terminated, carriage-return-free block being read, so byte
offsets and character counts agree. -/
theorem readStrip_resolveOffsets (e : IndexEntry) (d : Nat)
    (pre seq post : List Char)
    (hpre : pre.length = e.byte_offset)
    (hlen : seq.length = e.chrom_len)
    (hseq : ∀ c ∈ seq, c ≠ nl)
    (hscr : ∀ c ∈ seq, c ≠ cr)
    (hb : 1 ≤ e.line_nbase)
    (hchar : e.line_nchar = e.line_nbase + d)
    (qs qe : Nat) (hle : qs ≤ qe) (hq : qe < e.chrom_len) :
    readStrip
        (pre ++ (encodeLines e.line_nbase (List.replicate d nl) seq ++ post))
        (resolveOffsets e qs qe).1 (resolveOffsets e qs qe).2.2 =
      (seq.drop qs).take (qe - qs + 1) := by
  have hd : e.line_nchar - e.line_nbase = d := by omega
  simp only [readStrip, resolveOffsets, hd]
  have hqm : e.line_nbase * (qs / e.line_nbase) + qs % e.line_nbase = qs :=
    Nat.div_add_mod qs e.line_nbase
  have hqm2 : e.line_nbase * (qe / e.line_nbase) + qe % e.line_nbase = qe :=
    Nat.div_add_mod qe e.line_nbase
  have hrr : qs % e.line_nbase < e.line_nbase := Nat.mod_lt qs (by omega)
  have hr2 : qe % e.line_nbase < e.line_nbase := Nat.mod_lt qe (by omega)
  have hqq2 : qs / e.line_nbase ≤ qe / e.line_nbase :=
    Nat.div_le_div_right hle
  have hcm : (qs / e.line_nbase) * e.line_nbase =
      e.line_nbase * (qs / e.line_nbase) := Nat.mul_comm _ _
  have hofs : e.byte_offset + qs + d * (qs / e.line_nbase) =
      pre.length + ((qs / e.line_nbase) * (e.line_nbase + d)
        + qs % e.line_nbase) := by
    rw [hpre]
    have hmd : (qs / e.line_nbase) * (e.line_nbase + d) =
        e.line_nbase * (qs / e.line_nbase) + d * (qs / e.line_nbase) := by
      ring
    omega
  rw [hofs, List.drop_append, ← List.drop_drop]
  have hql : (qs / e.line_nbase) * e.line_nbase < seq.length := by omega
  rw [encodeLines_drop_lines e.line_nbase d (List.replicate d nl) hb
    (List.length_replicate d nl) (qs / e.line_nbase) seq post hql]
  have hdistb : e.line_nbase * (qe / e.line_nbase - qs / e.line_nbase)
      + e.line_nbase * (qs / e.line_nbase)
      = e.line_nbase * (qe / e.line_nbase) := by
    rw [← Nat.mul_add]
    congr 1
    omega
  have heloc : qe - (qs / e.line_nbase) * e.line_nbase =
      e.line_nbase * (qe / e.line_nbase - qs / e.line_nbase)
        + qe % e.line_nbase := by
    omega
  have helocdiv : (qe - (qs / e.line_nbase) * e.line_nbase) / e.line_nbase =
      qe / e.line_nbase - qs / e.line_nbase := by
    rw [heloc, Nat.mul_add_div (by omega)]
    rw [Nat.div_eq_of_lt hr2]
    omega
  have hdistd : d * (qe / e.line_nbase - qs / e.line_nbase)
      + d * (qs / e.line_nbase) = d * (qe / e.line_nbase) := by
    rw [← Nat.mul_add]
    congr 1
    omega
  have hnbyte : e.byte_offset + qe + d * (qe / e.line_nbase)
      - (pre.length + ((qs / e.line_nbase) * (e.line_nbase + d)
        + qs % e.line_nbase)) + 1 =
      (qe - (qs / e.line_nbase) * e.line_nbase)
        + d * ((qe - (qs / e.line_nbase) * e.line_nbase) / e.line_nbase)
        + 1 - qs % e.line_nbase := by
    rw [← hofs, helocdiv]
    omega
  rw [hnbyte]
  have hs'len : (seq.drop ((qs / e.line_nbase) * e.line_nbase)).length =
      seq.length - (qs / e.line_nbase) * e.line_nbase := by
    rw [List.length_drop]
  have henclen := encodeLines_length e.line_nbase d (List.replicate d nl)
    hb (List.length_replicate d nl)
    (seq.drop ((qs / e.line_nbase) * e.line_nbase))
  have hdivs : ((seq.drop ((qs / e.line_nbase) * e.line_nbase)).length
      + e.line_nbase - 1) / e.line_nbase =
      ((seq.drop ((qs / e.line_nbase) * e.line_nbase)).length - 1)
        / e.line_nbase + 1 := by
    rw [show (seq.drop ((qs / e.line_nbase) * e.line_nbase)).length
      + e.line_nbase - 1 =
      ((seq.drop ((qs / e.line_nbase) * e.line_nbase)).length - 1)
        + e.line_nbase by omega]
    exact Nat.add_div_right _ (by omega)
  have hmul2 : d * (((seq.drop ((qs / e.line_nbase) * e.line_nbase)).length
      + e.line_nbase - 1) / e.line_nbase) =
      d * (((seq.drop ((qs / e.line_nbase) * e.line_nbase)).length - 1)
        / e.line_nbase) + d := by
    rw [hdivs, Nat.mul_add, Nat.mul_one]
  have hdivmono : (qe - (qs / e.line_nbase) * e.line_nbase) / e.line_nbase
      ≤ ((seq.drop ((qs / e.line_nbase) * e.line_nbase)).length - 1)
        / e.line_nbase :=
    Nat.div_le_div_right (by omega)
  have hmul3 : d * ((qe - (qs / e.line_nbase) * e.line_nbase)
      / e.line_nbase) ≤
      d * (((seq.drop ((qs / e.line_nbase) * e.line_nbase)).length - 1)
        / e.line_nbase) :=
    Nat.mul_le_mul_left _ hdivmono
  have hbound : (qe - (qs / e.line_nbase) * e.line_nbase)
      + d * ((qe - (qs / e.line_nbase) * e.line_nbase) / e.line_nbase)
      + 1 ≤ (encodeLines e.line_nbase (List.replicate d nl)
        (seq.drop ((qs / e.line_nbase) * e.line_nbase))).length := by
    omega
  rw [List.drop_append_eq_append_drop]
  rw [show qs % e.line_nbase - (encodeLines e.line_nbase
    (List.replicate d nl)
    (seq.drop ((qs / e.line_nbase) * e.line_nbase))).length = 0 by omega]
  rw [List.drop_zero]
  have hnocr : ∀ c ∈ (encodeLines e.line_nbase (List.replicate d nl)
      (seq.drop ((qs / e.line_nbase) * e.line_nbase))).drop
        (qs % e.line_nbase), c ≠ cr := by
    intro c hc
    rcases mem_encodeLines e.line_nbase (List.replicate d nl)
      (seq.drop ((qs / e.line_nbase) * e.line_nbase)) c
      (List.mem_of_mem_drop hc) with h1 | h2
    · exact hscr c (List.mem_of_mem_drop h1)
    · rw [List.mem_replicate] at h2
      rw [h2.2]
      decide
  rw [uNl_append_no_cr _ post hnocr]
  rw [List.take_append_eq_append_take]
  rw [show (qe - (qs / e.line_nbase) * e.line_nbase)
      + d * ((qe - (qs / e.line_nbase) * e.line_nbase) / e.line_nbase)
      + 1 - qs % e.line_nbase -
      ((encodeLines e.line_nbase (List.replicate d nl)
        (seq.drop ((qs / e.line_nbase) * e.line_nbase))).drop
          (qs % e.line_nbase)).length = 0 by
    rw [List.length_drop]
    omega]
  rw [List.take_zero, List.append_nil]
  have hslice := encode_slice_filter e.line_nbase d hb
    (qe - (qs / e.line_nbase) * e.line_nbase)
    (seq.drop ((qs / e.line_nbase) * e.line_nbase)) [] (qs % e.line_nbase)
    (fun c hc => hseq c (List.mem_of_mem_drop hc)) hrr (by omega)
    (by rw [List.length_drop]; omega)
  rw [List.append_nil] at hslice
  rw [hslice]
  rw [List.drop_drop]
  rw [show (qs / e.line_nbase) * e.line_nbase + qs % e.line_nbase = qs by
    omega]
  congr 1
  omega

/-- C2 (amended): for every contig in the index and every 1-based pair
`1 <= start <= end <= contig_length`, and for EVERY terminator width
`d = line_nchar - line_nbase >= 1` whose terminator bytes are all the
newline character, `query_region` returns the region label and a sequence
equal to the requested slice of the contig, hence of length exactly
`end - start + 1` and containing no terminator byte. -/
theorem fasta_query_exact_on_newline_file
    (tbl : String → Option IndexEntry) (chrom : String) (e : IndexEntry)
    (pre seq post : List Char) (d : Nat)
    (htbl : tbl chrom = some e)
    (hpre : pre.length = e.byte_offset)
    (hlen : seq.length = e.chrom_len)
    (hseq : ∀ c ∈ seq, c ≠ nl)
    (hscr : ∀ c ∈ seq, c ≠ cr)
    (hb : 1 ≤ e.line_nbase)
    (hd1 : 1 ≤ d)
    (hchar : e.line_nchar = e.line_nbase + d)
    (pstart pend : Nat)
    (h1 : 1 ≤ pstart) (h2 : pstart ≤ pend) (h3 : pend ≤ e.chrom_len) :
    fastaQueryRegion tbl
        (pre ++ encodeLines e.line_nbase (List.replicate d nl) seq ++ post)
        chrom (some (pstart : Int)) (some (pend : Int)) =
      QueryResult.ok (regionStrOf chrom (pstart : Int) (pend : Int))
        ((seq.drop (pstart - 1)).take (pend - pstart + 1))
    ∧ ((seq.drop (pstart - 1)).take (pend - pstart + 1)).length
        = pend - pstart + 1
    ∧ ∀ c ∈ (seq.drop (pstart - 1)).take (pend - pstart + 1), c ≠ nl := by
  refine ⟨?_, ?_, ?_⟩
  · have hps0 : ((pstart : Int)) ≠ 0 := by omega
    have hpe0 : ((pend : Int)) ≠ 0 := by omega
    have hns : normStart (some (pstart : Int)) = (pstart : Int) := by
      simp [normStart, pyFalsy, hps0]
    have hne : normEnd (some (pend : Int)) e.chrom_len = (pend : Int) := by
      simp [normEnd, pyFalsy, hpe0]
    simp only [fastaQueryRegion, htbl, hns, hne]
    rw [if_neg (by omega)]
    rw [if_neg (by omega)]
    rw [if_neg (by omega)]
    have hts : ((pstart : Int) - 1).toNat = pstart - 1 := by omega
    have hte : ((pend : Int) - 1).toNat = pend - 1 := by omega
    rw [hts, hte]
    rw [List.append_assoc]
    rw [readStrip_resolveOffsets e d pre seq post hpre hlen hseq hscr hb
      hchar (pstart - 1) (pend - 1) (by omega) (by omega)]
    rw [show pend - 1 - (pstart - 1) + 1 = pend - pstart + 1 by omega]
  · rw [List.length_take, List.length_drop]
    omega
  · intro c hc
    exact hseq c (List.mem_of_mem_drop (List.mem_of_mem_take hc))

/-- The code's offset resolution is literally the spec formula at both
endpoints. -/
theorem resolveOffsets_eq (e : IndexEntry) (qs qe : Nat) :
    resolveOffsets e qs qe =
      (offsetSpec e qs, offsetSpec e qe,
        offsetSpec e qe - offsetSpec e qs + 1) := rfl

/-- The offset map is monotone. -/
theorem offsetSpec_mono (e : IndexEntry) {p q : Nat} (h : p ≤ q) :
    offsetSpec e p ≤ offsetSpec e q := by
  unfold offsetSpec
  have h1 : p / e.line_nbase ≤ q / e.line_nbase := Nat.div_le_div_right h
  have h2 : (e.line_nchar - e.line_nbase) * (p / e.line_nbase) ≤
      (e.line_nchar - e.line_nbase) * (q / e.line_nbase) :=
    Nat.mul_le_mul_left _ h1
  omega

/-- The offset map is strictly monotone. -/
theorem offsetSpec_strict_mono (e : IndexEntry) {p q : Nat} (h : p < q) :
    offsetSpec e p < offsetSpec e q := by
  unfold offsetSpec
  have h1 : p / e.line_nbase ≤ q / e.line_nbase :=
    Nat.div_le_div_right (by omega)
  have h2 : (e.line_nchar - e.line_nbase) * (p / e.line_nbase) ≤
      (e.line_nchar - e.line_nbase) * (q / e.line_nbase) :=
    Nat.mul_le_mul_left _ h1
  omega

/-- C1: for every index entry (with the fai invariants
`1 <= line_nbase <= line_nchar`) and every 0-based inclusive query pair,
the resolved byte range is
`offset(p) = byte_offset + p + line_ndiff * floor(p / line_nbase)` at both
endpoints, the byte count is `offset_end - offset_start + 1`, the read
returns exactly that many bytes when the file extends past `offset_end`,
and with `line_nbase = 60`, `line_nchar = 61`, `byte_offset = 0` the
0-based position `p = 60` resolves to byte offset `61`. -/
theorem resolveOffsets_matches_formula (e : IndexEntry)
    (hb : 1 ≤ e.line_nbase) (hc : e.line_nbase ≤ e.line_nchar)
    (qs qe : Nat) (hle : qs ≤ qe)
    (fa : List Char) (hfa : (resolveOffsets e qs qe).2.1 < fa.length) :
    (resolveOffsets e qs qe).1 = offsetSpec e qs
    ∧ (resolveOffsets e qs qe).2.1 = offsetSpec e qe
    ∧ (resolveOffsets e qs qe).2.2 = offsetSpec e qe - offsetSpec e qs + 1
    ∧ ((fa.drop (resolveOffsets e qs qe).1).take
        (resolveOffsets e qs qe).2.2).length = (resolveOffsets e qs qe).2.2
    ∧ offsetSpec ⟨1000, 0, 60, 61⟩ 60 = 61 := by
  refine ⟨rfl, rfl, rfl, ?_, by decide⟩
  simp only [resolveOffsets_eq, Prod.fst, Prod.snd] at hfa ⊢
  rw [List.length_take, List.length_drop]
  have hmono : offsetSpec e qs ≤ offsetSpec e qe := offsetSpec_mono e hle
  omega

/-- Witness for C1 at the spec's synthetic index. -/
theorem resolveOffsets_matches_formula_witness :
    (resolveOffsets ⟨1000, 0, 60, 61⟩ 0 60).1 =
      offsetSpec ⟨1000, 0, 60, 61⟩ 0
    ∧ offsetSpec ⟨1000, 0, 60, 61⟩ 60 = 61 := by
  have h := resolveOffsets_matches_formula ⟨1000, 0, 60, 61⟩ (by decide)
    (by decide) 0 60 (by decide) (List.replicate 100 'A') (by decide)
  exact ⟨h.1, h.2.2.2.2⟩

/-- C10: with `line_nbase >= 1` and `line_nchar >= line_nbase`, the offset
map is strictly increasing; hence for `query_start <= query_end` the code
computes `offset_start <= offset_end` and a read byte count of at least
one. -/
theorem offset_map_strictly_increasing (e : IndexEntry)
    (hb : 1 ≤ e.line_nbase) (hc : e.line_nbase ≤ e.line_nchar) :
    (∀ p q, p < q → offsetSpec e p < offsetSpec e q)
    ∧ ∀ qs qe, qs ≤ qe →
        (resolveOffsets e qs qe).1 ≤ (resolveOffsets e qs qe).2.1
        ∧ 1 ≤ (resolveOffsets e qs qe).2.2 := by
  constructor
  · intro p q h
    exact offsetSpec_strict_mono e h
  · intro qs qe h
    have hmono : offsetSpec e qs ≤ offsetSpec e qe := offsetSpec_mono e h
    constructor
    · show offsetSpec e qs ≤ offsetSpec e qe
      exact hmono
    · show 1 ≤ offsetSpec e qe - offsetSpec e qs + 1
      omega

/-- Witness for C10 at the spec's synthetic index. -/
theorem offset_map_strictly_increasing_witness :
    offsetSpec ⟨1000, 0, 60, 61⟩ 0 < offsetSpec ⟨1000, 0, 60, 61⟩ 60
    ∧ 1 ≤ (resolveOffsets ⟨1000, 0, 60, 61⟩ 5 10).2.2 := by
  have h := offset_map_strictly_increasing ⟨1000, 0, 60, 61⟩ (by decide)
    (by decide)
  exact ⟨h.1 0 60 (by decide), (h.2 5 10 (by decide)).2⟩

/-- C2 counterexample: on a file whose 2-byte line terminator is the CRLF
pair (entry `chrom_len 4, byte_offset 0, line_nbase 2, line_nchar 4`),
the text-mode read translates each `'\r\n'` to one `'\n'`, so byte
offsets desynchronize from the character count read: the query
`chrA:1-3` reads `read_nbyte = 5` characters of the translated stream
`"AC\nGT\n"` and, after stripping, returns `"ACGT"` — length 4, not
`end - start + 1 = 3`.  The claim fails for terminator width 2. -/
theorem fasta_query_crlf_counterexample :
    encodeLines 2 ['\r', '\n'] ['A', 'C', 'G', 'T'] =
      ['A', 'C', '\r', '\n', 'G', 'T', '\r', '\n']
    ∧ fastaQueryRegion
        (fun n => if n = "chrA" then some ⟨4, 0, 2, 4⟩ else none)
        ['A', 'C', '\r', '\n', 'G', 'T', '\r', '\n'] "chrA"
        (some 1) (some 3) =
      QueryResult.ok "chrA:1-3" ['A', 'C', 'G', 'T']
    ∧ (['A', 'C', 'G', 'T'] : List Char).length ≠ 3 - 1 + 1 := by
  refine ⟨?_, by decide, by decide⟩
  simp +decide [encodeLines_pos, encodeLines_nil]

/-- Witness for the amended C2 at a concrete two-line file with a 2-byte
header prefix. -/
theorem fasta_query_exact_witness :
    fastaQueryRegion
        (fun n => if n = "chrW" then some ⟨4, 2, 2, 3⟩ else none)
        (['>', 'h'] ++
          encodeLines 2 (List.replicate 1 nl) ['A', 'C', 'G', 'T'] ++ [])
        "chrW" (some ((2 : Nat) : Int)) (some ((3 : Nat) : Int)) =
      QueryResult.ok (regionStrOf "chrW" ((2 : Nat) : Int) ((3 : Nat) : Int))
        (((['A', 'C', 'G', 'T'] : List Char).drop (2 - 1)).take (3 - 2 + 1)) :=
  (fasta_query_exact_on_newline_file
    (fun n => if n = "chrW" then some ⟨4, 2, 2, 3⟩ else none) "chrW"
    ⟨4, 2, 2, 3⟩ ['>', 'h'] ['A', 'C', 'G', 'T'] [] 1
    (by decide) (by decide) (by decide) (by decide) (by decide) (by decide)
    (by decide) (by decide) 2 3 (by decide) (by decide) (by decide)).1

/-- C3 counterexample: for entry `chrom_len = 100` and the region
`chr1:5-200` (a supplied in-range start of 5 with an overflowing end),
`Sequence.query_region` normalizes the 0-based start to 0, not to
`5 - 1 = 4`: the supplied in-range start is NOT preserved. -/
theorem seqNormalize_overflow_discards_start :
    seqNormalize ⟨100, 0, 60, 61⟩ ⟨"chr1", 5, 200, 196⟩ = (0, 99)
    ∧ (seqNormalize ⟨100, 0, 60, 61⟩ ⟨"chr1", 5, 200, 196⟩).1 ≠ 5 - 1 := by
  decide

/-- C3 (amended): a whole-contig region, or any region whose end exceeds
`chrom_len`, is normalized to the full contig — both bounds are reset, so
an overflowing end also discards the supplied start; the supplied bounds
are preserved exactly when the region is explicit with
`pend <= chrom_len`. -/
theorem seqNormalize_characterization (e : IndexEntry) (r : Region)
    (hs : 1 ≤ r.pstart) (hse : r.pstart ≤ r.pend) (hlen : 1 ≤ e.chrom_len) :
    ((r.length = -1 ∨ (e.chrom_len : Int) < r.pend) →
      seqNormalize e r = (0, e.chrom_len - 1))
    ∧ (r.length ≠ -1 → r.pend ≤ (e.chrom_len : Int) →
        ((seqNormalize e r).1 : Int) = r.pstart - 1
        ∧ ((seqNormalize e r).2 : Int) = r.pend - 1) := by
  constructor
  · intro h
    simp [seqNormalize, h]
  · intro h1 h2
    have hcond : ¬(r.length = -1 ∨ (e.chrom_len : Int) < r.pend) := by
      push_neg
      exact ⟨h1, by omega⟩
    simp only [seqNormalize, if_neg hcond]
    constructor
    · show (((r.pstart - 1).toNat : Nat) : Int) = r.pstart - 1
      omega
    · show (((r.pend - 1).toNat : Nat) : Int) = r.pend - 1
      omega

/-- Witness for the amended C3: one instantiation of each branch. -/
theorem seqNormalize_characterization_witness :
    seqNormalize ⟨100, 0, 60, 61⟩ ⟨"chrX", 5, 200, 196⟩ = (0, 99)
    ∧ ((seqNormalize ⟨100, 0, 60, 61⟩ ⟨"chrX", 5, 50, 46⟩).1 : Int)
        = 5 - 1 := by
  have h1 := seqNormalize_characterization ⟨100, 0, 60, 61⟩
    ⟨"chrX", 5, 200, 196⟩ (by decide) (by decide) (by decide)
  have h2 := seqNormalize_characterization ⟨100, 0, 60, 61⟩
    ⟨"chrX", 5, 50, 46⟩ (by decide) (by decide) (by decide)
  exact ⟨h1.1 (by decide), (h2.2 (by decide) (by decide)).1⟩

/-- C4: whenever the normalized bounds of `Fasta.query_region` violate
`1 <= pstart <= pend <= chrom_len`, the query returns the range-error
outcome carrying the attempted region string and no sequence. -/
theorem fasta_query_range_error (tbl : String → Option IndexEntry)
    (fa : List Char) (chrom : String) (ps0 pe0 : Option Int)
    (e : IndexEntry) (htbl : tbl chrom = some e)
    (hviol : normStart ps0 < 1 ∨ (e.chrom_len : Int) < normStart ps0
      ∨ normEnd pe0 e.chrom_len < 1
      ∨ (e.chrom_len : Int) < normEnd pe0 e.chrom_len
      ∨ normEnd pe0 e.chrom_len < normStart ps0) :
    fastaQueryRegion tbl fa chrom ps0 pe0 =
      QueryResult.rangeError
        (regionStrOf chrom (normStart ps0) (normEnd pe0 e.chrom_len)) := by
  simp only [fastaQueryRegion, htbl]
  by_cases h1 : normStart ps0 < 1 ∨ (e.chrom_len : Int) < normStart ps0
  · rw [if_pos h1]
  · rw [if_neg h1]
    by_cases h2 : normEnd pe0 e.chrom_len < 1
        ∨ (e.chrom_len : Int) < normEnd pe0 e.chrom_len
    · rw [if_pos h2]
    · rw [if_neg h2]
      rw [if_pos (by tauto)]

/-- Witness for C4: a negative-length query `chrY:5-2`. -/
theorem fasta_query_range_error_witness :
    fastaQueryRegion
        (fun n => if n = "chrY" then some ⟨50, 0, 60, 61⟩ else none)
        [] "chrY" (some 5) (some 2) =
      QueryResult.rangeError
        (regionStrOf "chrY" (normStart (some 5)) (normEnd (some 2) 50)) :=
  fasta_query_range_error _ [] "chrY" (some 5) (some 2) ⟨50, 0, 60, 61⟩
    (by decide) (by decide)

/-- C5: `Region.__init__` with exactly one (clean) contig argument does
NOT build a whole-contig region: it crashes with `UnboundLocalError`,
because the one-argument path never assigns the local variables read by
the final tuple assignment.  Zero arguments do produce the empty region,
which renders as the empty string. -/
theorem region_one_arg_unbound_local :
    regionInit [Arg.str "chr1"] = InitResult.unboundLocal
    ∧ regionInit [] = InitResult.ok ⟨"", -1, -1, -1⟩
    ∧ regionStr ⟨"", -1, -1, -1⟩ = "" := by
  decide

/-- C8: a region whose contig is absent from the index table yields the
unknown-contig outcome (no sequence), and the result does not depend on
the sequence-file contents — no read is performed. -/
theorem fasta_query_unknown_contig (tbl : String → Option IndexEntry)
    (fa fa2 : List Char) (chrom : String) (ps0 pe0 : Option Int)
    (h : tbl chrom = none) :
    fastaQueryRegion tbl fa chrom ps0 pe0 = QueryResult.unknownChrom
    ∧ fastaQueryRegion tbl fa chrom ps0 pe0 =
        fastaQueryRegion tbl fa2 chrom ps0 pe0 := by
  constructor
  · simp [fastaQueryRegion, h]
  · simp [fastaQueryRegion, h]

/-- Witness for C8 on the empty table. -/
theorem fasta_query_unknown_contig_witness :
    fastaQueryRegion (fun _ => none) ['A'] "chrZ" none none =
      QueryResult.unknownChrom :=
  (fasta_query_unknown_contig (fun _ => none) ['A'] [] "chrZ" none none
    rfl).1

/-- Loader loop invariant, lookup component: the final dictionary maps a
name to the value of its last occurrence among the processed entries,
falling back to the incoming dictionary. -/
theorem loadIndexAux_fst {β : Type} (es : List (String × β)) :
    ∀ (dd : String → Option β) (names : List String) (n : String),
    (loadIndexAux dd names es).1 n = (lastEntry es n).or (dd n) := by
  induction es with
  | nil =>
    intro dd names n
    simp [loadIndexAux, lastEntry]
  | cons kv rest ih =>
    intro dd names n
    obtain ⟨k, v⟩ := kv
    show (loadIndexAux (fun m => if m = k then some v else dd m)
      (names ++ [k]) rest).1 n = _
    rw [ih]
    unfold lastEntry
    rw [List.reverse_cons, List.find?_append]
    rcases hf : rest.reverse.find? (fun p => p.1 == n) with _ | w
    · by_cases hk : k = n
      · subst hk
        simp [List.find?, hf]
      · have hkn : (k == n) = false := by simp [hk]
        have hnk : ¬(n = k) := fun hh => hk hh.symm
        simp [List.find?, hf, hkn, hnk]
    · simp [hf]

/-- Loader loop invariant, name-list component: every processed entry
appends its name, unconditionally. -/
theorem loadIndexAux_snd {β : Type} (es : List (String × β)) :
    ∀ (dd : String → Option β) (names : List String),
    (loadIndexAux dd names es).2 = names ++ es.map Prod.fst := by
  induction es with
  | nil =>
    intro dd names
    simp [loadIndexAux]
  | cons kv rest ih =>
    intro dd names
    obtain ⟨k, v⟩ := kv
    show (loadIndexAux _ (names ++ [k]) rest).2 = _
    rw [ih]
    simp

/-- C6 (amended): after loading, the lookup for each name carries the
metadata of that name's LAST occurrence, while the ordered name list
records one element per input line in file order — so a duplicated contig
appears once per occurrence (its first listing at the first-occurrence
position), not exactly once. -/
theorem load_index_last_wins_names_every_occurrence {β : Type}
    (entries : List (String × β)) (n : String) :
    (loadIndex entries).1 n = lastEntry entries n
    ∧ (loadIndex entries).2 = entries.map Prod.fst := by
  constructor
  · rw [loadIndex, loadIndexAux_fst]
    cases lastEntry entries n <;> simp
  · rw [loadIndex, loadIndexAux_snd]
    simp

/-- C6 counterexample: with `chrA` on lines 1 and 3, the lookup carries
line 3's metadata, but the ordered name list is `[chrA, chrB, chrA]` —
`chrA` occurs twice, refuting "appears exactly once". -/
theorem load_index_duplicate_counterexample :
    (loadIndex [("chrA", (⟨10, 0, 60, 61⟩ : RawIndexEntry)),
        ("chrB", ⟨20, 3, 60, 61⟩), ("chrA", ⟨99, 7, 50, 51⟩)]).2 =
      ["chrA", "chrB", "chrA"]
    ∧ ((loadIndex [("chrA", (⟨10, 0, 60, 61⟩ : RawIndexEntry)),
        ("chrB", ⟨20, 3, 60, 61⟩), ("chrA", ⟨99, 7, 50, 51⟩)]).2.count
        "chrA") ≠ 1
    ∧ (loadIndex [("chrA", (⟨10, 0, 60, 61⟩ : RawIndexEntry)),
        ("chrB", ⟨20, 3, 60, 61⟩), ("chrA", ⟨99, 7, 50, 51⟩)]).1 "chrA" =
      some ⟨99, 7, 50, 51⟩ := by
  decide

/-- C7 counterexample: for arguments `("chr:1", 0)` the range-error
condition holds (position `0 <= 0`), yet the constructor raises the
caller-error (`InternalError`), because the delimiter check runs first —
so "raises a range-error exactly when a position is non-positive or
end < start" fails as stated. -/
theorem region_init_masked_range_counterexample :
    rangeCond [Arg.str "chr:1", Arg.int 0] = true
    ∧ regionInit [Arg.str "chr:1", Arg.int 0] = InitResult.internalError
    ∧ regionInit [Arg.str "chr:1", Arg.int 0] ≠ InitResult.rangeError := by
  decide

/-- C7 (amended): `InternalError` is raised exactly on the caller-error
condition (arity above three, or delimiter in the contig string), and
`RegionRangeError` exactly when no caller-error condition holds AND a
supplied position is non-positive or the end precedes the start: the
caller-error checks run first and mask simultaneous range violations. -/
theorem region_init_error_conditions (args : List Arg) :
    (regionInit args = InitResult.internalError ↔ callerCond args = true)
    ∧ (regionInit args = InitResult.rangeError ↔
        (callerCond args = false ∧ rangeCond args = true)) := by
  rcases args with _ | ⟨a, _ | ⟨b, _ | ⟨c3, _ | ⟨d, rest⟩⟩⟩⟩
  · simp [regionInit, callerCond, rangeCond]
  · cases a with
    | str c =>
      by_cases hD : hasDelim c
      · simp [regionInit, callerCond, rangeCond, hD]
      · simp [regionInit, callerCond, rangeCond, hD]
    | int v => simp [regionInit, callerCond, rangeCond]
  · cases a with
    | str c =>
      cases b with
      | int p =>
        by_cases hD : hasDelim c
        · simp [regionInit, callerCond, rangeCond, hD]
        · by_cases hp : p ≤ 0
          · simp [regionInit, callerCond, rangeCond, hD, hp]
          · simp [regionInit, callerCond, rangeCond, hD, hp]
      | str s2 =>
        by_cases hD : hasDelim c
        · simp [regionInit, callerCond, rangeCond, hD]
        · simp [regionInit, callerCond, rangeCond, hD]
    | int v => simp [regionInit, callerCond, rangeCond]
  · cases a with
    | str c =>
      cases b with
      | int p =>
        cases c3 with
        | int q =>
          by_cases hD : hasDelim c
          · simp [regionInit, callerCond, rangeCond, hD]
          · by_cases hp : p ≤ 0 ∨ q ≤ 0
            · simp [regionInit, callerCond, rangeCond, hD, hp]
            · by_cases hq : q < p
              · simp [regionInit, callerCond, rangeCond, hD, hp, hq]
              · simp [regionInit, callerCond, rangeCond, hD, hp, hq]
        | str s3 =>
          by_cases hD : hasDelim c
          · simp [regionInit, callerCond, rangeCond, hD]
          · simp [regionInit, callerCond, rangeCond, hD]
      | str s2 =>
        by_cases hD : hasDelim c
        · simp [regionInit, callerCond, rangeCond, hD]
        · simp [regionInit, callerCond, rangeCond, hD]
    | int v => simp [regionInit, callerCond, rangeCond]
  · have hlen : (a :: b :: c3 :: d :: rest).length > 3 := by
      simp [List.length]
    simp [regionInit, callerCond, rangeCond, hlen]

/-- C9: any line that does not split into exactly five tab-separated
fields, or whose numeric fields do not parse, makes the entire index load
fail: no table is produced. -/
theorem load_index_file_fatal_on_bad_line (lines : List (List Char))
    (l : List Char) (hmem : l ∈ lines) (hbad : parseLine l = none) :
    loadIndexFile lines = none := by
  unfold loadIndexFile
  suffices h : parseLines lines = none by
    rw [h]
    rfl
  induction hmem with
  | head as => simp [parseLines, hbad]
  | tail b hm ih =>
    rcases hpb : parseLine b with _ | pe
    · simp [parseLines, hpb]
    · simp [parseLines, hpb, ih]

/-- Witness for C9: a two-line index whose second line has the
non-numeric length field `x`. -/
theorem load_index_file_fatal_witness :
    loadIndexFile ["chr1\t1000\t5\t60\t61".data, "chr2\tx\t0\t60\t61".data]
      = none :=
  load_index_file_fatal_on_bad_line _ "chr2\tx\t0\t60\t61".data
    (by decide) (by decide)
